import Mathlib

/-!
Shallow embedding of the BSP dungeon generator of `src/map.rs` and the
floor/corridor/wall derivation of `src/game.rs` (`setup_game`).

The random stream (`rand::Rng`) is modelled as an explicit value holding
the stream of coin flips consumed by `gen_bool(0.5)` and the stream of
draws consumed by `gen_range(lo..hi)`; a range draw returns
`lo + n % (hi - lo)`, which lies in `[lo, hi)` whenever `lo < hi`, the
contract of `gen_range`.  Machine integers (`i32`) are modelled as `Int`;
the generator's arithmetic stays far from the `i32` boundaries on all
inputs considered here, so no wrap-around modelling is needed.
`usize` ids are modelled as `Nat`.  Rust's truncating `/` on `i32` is
modelled by `Int.tdiv`.
-/

/-- Grid cell, `Position { x, y }` of `src/components.rs`. -/
structure Position where
  x : Int
  y : Int
deriving DecidableEq, Repr

/-- `Rect { x, y, width, height }` of `src/map.rs`. -/
structure Rect where
  x : Int
  y : Int
  width : Int
  height : Int
deriving DecidableEq, Repr

/-- `Room { id, bounds, inner }` of `src/map.rs`. -/
structure Room where
  id : Nat
  bounds : Rect
  inner : Rect
deriving DecidableEq, Repr

/-- The random stream: the booleans consumed by `gen_bool(0.5)` and the
draws consumed by `gen_range`. -/
structure RNG where
  bits : List Bool
  nats : List Nat
deriving DecidableEq, Repr

/-- `rng.gen_bool(0.5)`: consume the next coin flip. -/
def genBool (g : RNG) : Bool × RNG :=
  (g.bits.headD false, ⟨g.bits.tail, g.nats⟩)

/-- `rng.gen_range(lo..hi)`: consume the next draw; the result lies in
`[lo, hi)` whenever `lo < hi`. -/
def genRange (lo hi : Int) (g : RNG) : Int × RNG :=
  (lo + (Int.ofNat (g.nats.headD 0)) % (hi - lo), ⟨g.bits, g.nats.tail⟩)

/-- `Rect::center` of `src/map.rs`: `(x + width / 2, y + height / 2)`
with Rust's truncating `i32` division. -/
def Rect.center (r : Rect) : Int × Int :=
  (r.x + Int.tdiv r.width 2, r.y + Int.tdiv r.height 2)

/-- `Rect::subdivide` of `src/map.rs`. -/
def Rect.subdivide (r : Rect) (g : RNG) : Option (Rect × Rect) × RNG :=
  let min_size : Int := 6
  let can_split_h : Bool := r.height > min_size * 2
  let can_split_v : Bool := r.width > min_size * 2
  if !can_split_h && !can_split_v then
    (none, g)
  else
    let p := if can_split_h && can_split_v then genBool g else (can_split_h, g)
    let split_horizontal := p.1
    let g := p.2
    if split_horizontal then
      let max_split := r.height - min_size
      let min_split := min_size
      if min_split < max_split then
        let q := genRange min_split max_split g
        let split := q.1
        (some (⟨r.x, r.y, r.width, split⟩,
               ⟨r.x, r.y + split, r.width, r.height - split⟩), q.2)
      else
        (none, g)
    else
      let max_split := r.width - min_size
      let min_split := min_size
      if min_split < max_split then
        let q := genRange min_split max_split g
        let split := q.1
        (some (⟨r.x, r.y, split, r.height⟩,
               ⟨r.x + split, r.y, r.width - split, r.height⟩), q.2)
      else
        (none, g)

/-- One round of the loop body of `bsp_split`: each leaf is replaced by
its two children when `subdivide` succeeds and kept otherwise. -/
def subdivideRound : List Rect → RNG → List Rect × RNG
  | [], g => ([], g)
  | r :: rest, g =>
    match r.subdivide g with
    | (some (a, b), g1) =>
      let t := subdivideRound rest g1
      (a :: b :: t.1, t.2)
    | (none, g1) =>
      let t := subdivideRound rest g1
      (r :: t.1, t.2)

/-- The `for _ in 0..depth` loop of `bsp_split`. -/
def bspRounds : List Rect → Nat → RNG → List Rect × RNG
  | ls, 0, g => (ls, g)
  | ls, n + 1, g =>
    let t := subdivideRound ls g
    bspRounds t.1 n t.2

/-- The room-carving step of `bsp_split`: inset the fixed `margin = 1`
on every side. -/
def carve (bounds : Rect) : Rect :=
  ⟨bounds.x + 1, bounds.y + 1, bounds.width - 2, bounds.height - 2⟩

/-- `.enumerate().map(...)` of `bsp_split`: assign ids by flat order. -/
def numberRooms : Nat → List Rect → List Room
  | _, [] => []
  | i, b :: rest => ⟨i, b, carve b⟩ :: numberRooms (i + 1) rest

/-- `bsp_split` of `src/map.rs`. -/
def bsp_split (rect : Rect) (depth : Nat) (g : RNG) : List Room × RNG :=
  let t := bspRounds [rect] depth g
  (numberRooms 0 t.1, t.2)

/-- Cell membership in a `Rect`, as iterated by the nested
`for y ... for x ...` loops of `setup_game`. -/
def Rect.containsCell (r : Rect) (p : Position) : Prop :=
  r.x ≤ p.x ∧ p.x < r.x + r.width ∧ r.y ≤ p.y ∧ p.y < r.y + r.height

instance (r : Rect) (p : Position) : Decidable (r.containsCell p) := by
  unfold Rect.containsCell; infer_instance

/-- The cells of a `Rect`, enumerated like the nested loops of
`setup_game` (`y` outer, `x` inner). -/
def Rect.cellsList (r : Rect) : List Position :=
  (List.range r.height.toNat).flatMap fun (j : Nat) =>
    (List.range r.width.toNat).map fun (i : Nat) =>
      ⟨r.x + (i : Int), r.y + (j : Int)⟩

/-- The horizontal corridor leg `for x in xa.min(xb)..=xa.max(xb)` at
row `y`. -/
def hseg (xa xb y : Int) : List Position :=
  (List.range ((max xa xb - min xa xb).toNat + 1)).map fun (i : Nat) =>
    ⟨min xa xb + (i : Int), y⟩

/-- The vertical corridor leg `for y in ya.min(yb)..=ya.max(yb)` at
column `x`. -/
def vseg (ya yb x : Int) : List Position :=
  (List.range ((max ya yb - min ya yb).toNat + 1)).map fun (i : Nat) =>
    ⟨x, min ya yb + (i : Int)⟩

/-- The cells inserted for one corridor between centers `c1` and `c2`:
`b = true` is the `rng.gen_bool(0.5)` heads branch (horizontal leg at
`y1` first, then vertical leg at `x2`), `b = false` the tails branch. -/
def corridorPair (c1 c2 : Int × Int) (b : Bool) : List Position :=
  if b then hseg c1.1 c2.1 c1.2 ++ vseg c1.2 c2.2 c2.1
  else vseg c1.2 c2.2 c1.1 ++ hseg c1.1 c2.1 c2.2

/-- The `for i in 1..rooms.len()` corridor loop of `setup_game`,
walking consecutive room pairs and flipping one coin per pair. -/
def corridorsAux : Room → List Room → RNG → List Position × RNG
  | _, [], g => ([], g)
  | prev, r :: rest, g =>
    let p := genBool g
    let cells := corridorPair prev.inner.center r.inner.center p.1
    let t := corridorsAux r rest p.2
    (cells ++ t.1, t.2)

/-- All corridor cells of a generated room sequence. -/
def corridorCells : List Room → RNG → List Position × RNG
  | [], g => ([], g)
  | r :: rest, g => corridorsAux r rest g

/-- The room-interior floor cells inserted by the `// Spawn rooms` loop
of `setup_game`. -/
def roomFloor (rooms : List Room) : List Position :=
  rooms.flatMap fun room => room.inner.cellsList

/-- The complete `floor_positions` set of `setup_game`: all room inner
cells unioned with all corridor cells. -/
def floorCells (rooms : List Room) (g : RNG) : List Position :=
  roomFloor rooms ++ (corridorCells rooms g).1

/-- The 8 neighbors of a cell, in the order the `for dy ... for dx ...`
wall loop of `setup_game` visits them (skipping `(0, 0)`). -/
def neighbors8 (p : Position) : List Position :=
  [⟨p.x - 1, p.y - 1⟩, ⟨p.x, p.y - 1⟩, ⟨p.x + 1, p.y - 1⟩,
   ⟨p.x - 1, p.y⟩, ⟨p.x + 1, p.y⟩,
   ⟨p.x - 1, p.y + 1⟩, ⟨p.x, p.y + 1⟩, ⟨p.x + 1, p.y + 1⟩]

/-- The `// Spawn walls around floors` derivation of `setup_game`:
every 8-neighbor of a floor cell that is not itself a floor cell. -/
def deriveWalls (floor : List Position) : List Position :=
  floor.flatMap fun p =>
    (neighbors8 p).filter fun q => !decide (q ∈ floor)

/-- Chebyshev distance between two cells. -/
def chebDist (p q : Position) : Nat :=
  max (p.x - q.x).natAbs (p.y - q.y).natAbs

/-- One step between orthogonally adjacent cells that both lie in the
floor set. -/
def adjStep (floor : List Position) (p q : Position) : Prop :=
  p ∈ floor ∧ q ∈ floor ∧ (p.x - q.x).natAbs + (p.y - q.y).natAbs = 1

/-- Reachability through the floor set by orthogonally adjacent floor
cells (the relation a flood-fill over the floor set computes). -/
def Reachable (floor : List Position) : Position → Position → Prop :=
  Relation.ReflTransGen (adjStep floor)

/-! ## Basic membership and stream lemmas -/

theorem mem_hseg {xa xb y : Int} {p : Position} :
    p ∈ hseg xa xb y ↔ (min xa xb ≤ p.x ∧ p.x ≤ max xa xb ∧ p.y = y) := by
  rcases p with ⟨px, py⟩
  dsimp only
  constructor
  · intro hp
    obtain ⟨i, hi, heq⟩ := List.mem_map.1 hp
    rw [List.mem_range] at hi
    obtain ⟨h1, h2⟩ := Position.mk.injEq .. ▸ heq
    omega
  · intro h
    refine List.mem_map.2 ⟨(px - min xa xb).toNat, List.mem_range.2 (by omega), ?_⟩
    rw [Position.mk.injEq]
    constructor <;> omega

theorem mem_vseg {ya yb x : Int} {p : Position} :
    p ∈ vseg ya yb x ↔ (p.x = x ∧ min ya yb ≤ p.y ∧ p.y ≤ max ya yb) := by
  rcases p with ⟨px, py⟩
  dsimp only
  constructor
  · intro hp
    obtain ⟨i, hi, heq⟩ := List.mem_map.1 hp
    rw [List.mem_range] at hi
    obtain ⟨h1, h2⟩ := Position.mk.injEq .. ▸ heq
    omega
  · intro h
    refine List.mem_map.2 ⟨(py - min ya yb).toNat, List.mem_range.2 (by omega), ?_⟩
    rw [Position.mk.injEq]
    constructor <;> omega

theorem mem_cellsList {r : Rect} {p : Position} :
    p ∈ r.cellsList ↔ r.containsCell p := by
  rcases p with ⟨px, py⟩
  simp only [Rect.containsCell]
  constructor
  · intro hp
    obtain ⟨j, hj, hp2⟩ := List.mem_flatMap.1 hp
    obtain ⟨i, hi, heq⟩ := List.mem_map.1 hp2
    rw [List.mem_range] at hj hi
    obtain ⟨h1, h2⟩ := Position.mk.injEq .. ▸ heq
    omega
  · intro hc
    refine List.mem_flatMap.2 ⟨(py - r.y).toNat, List.mem_range.2 (by omega), ?_⟩
    refine List.mem_map.2 ⟨(px - r.x).toNat, List.mem_range.2 (by omega), ?_⟩
    rw [Position.mk.injEq]
    constructor <;> omega

theorem genRange_bounds (lo hi : Int) (g : RNG) (h : lo < hi) :
    lo ≤ (genRange lo hi g).1 ∧ (genRange lo hi g).1 < hi := by
  have h1 := Int.emod_nonneg (Int.ofNat (g.nats.headD 0)) (by omega : hi - lo ≠ 0)
  have h2 := Int.emod_lt_of_pos (Int.ofNat (g.nats.headD 0)) (by omega : 0 < hi - lo)
  simp only [genRange]
  omega

/-! ## Case analysis of `subdivide` -/

theorem subdivide_eq_some {r : Rect} {g : RNG} {a b : Rect} {g' : RNG}
    (h : r.subdivide g = (some (a, b), g')) :
    (∃ s, 6 ≤ s ∧ s < r.height - 6 ∧
      a = ⟨r.x, r.y, r.width, s⟩ ∧ b = ⟨r.x, r.y + s, r.width, r.height - s⟩) ∨
    (∃ s, 6 ≤ s ∧ s < r.width - 6 ∧
      a = ⟨r.x, r.y, s, r.height⟩ ∧ b = ⟨r.x + s, r.y, r.width - s, r.height⟩) := by
  by_cases hh : r.height > 6 * 2 <;> by_cases hv : r.width > 6 * 2 <;>
    simp only [Rect.subdivide, hh, hv, decide_True, decide_False, Bool.not_true,
      Bool.not_false, Bool.and_self, Bool.false_and, Bool.and_false, Bool.true_and,
      Bool.and_true, if_true, if_false, ite_true, ite_false,
      decide_eq_true_eq] at h
  · rcases hb : (genBool g).1 with _ | _ <;> simp only [hb, if_false, if_true] at h
    · have hlt : (6 : Int) < r.width - 6 := by omega
      rw [if_pos hlt] at h
      rcases Prod.mk.injEq .. ▸ h with ⟨h1, h2⟩
      rcases Option.some.injEq .. ▸ h1 with h3
      rcases Prod.mk.injEq .. ▸ h3 with ⟨ha, hb2⟩
      exact Or.inr ⟨_, (genRange_bounds 6 (r.width - 6) (genBool g).2 hlt).1,
        (genRange_bounds 6 (r.width - 6) (genBool g).2 hlt).2, ha.symm, hb2.symm⟩
    · have hlt : (6 : Int) < r.height - 6 := by omega
      rw [if_pos hlt] at h
      rcases Prod.mk.injEq .. ▸ h with ⟨h1, h2⟩
      rcases Option.some.injEq .. ▸ h1 with h3
      rcases Prod.mk.injEq .. ▸ h3 with ⟨ha, hb2⟩
      exact Or.inl ⟨_, (genRange_bounds 6 (r.height - 6) (genBool g).2 hlt).1,
        (genRange_bounds 6 (r.height - 6) (genBool g).2 hlt).2, ha.symm, hb2.symm⟩
  · have hlt : (6 : Int) < r.height - 6 := by omega
    rw [if_pos hlt] at h
    rcases Prod.mk.injEq .. ▸ h with ⟨h1, h2⟩
    rcases Option.some.injEq .. ▸ h1 with h3
    rcases Prod.mk.injEq .. ▸ h3 with ⟨ha, hb2⟩
    exact Or.inl ⟨_, (genRange_bounds 6 (r.height - 6) g hlt).1,
      (genRange_bounds 6 (r.height - 6) g hlt).2, ha.symm, hb2.symm⟩
  · have hlt : (6 : Int) < r.width - 6 := by omega
    rw [if_pos hlt] at h
    rcases Prod.mk.injEq .. ▸ h with ⟨h1, h2⟩
    rcases Option.some.injEq .. ▸ h1 with h3
    rcases Prod.mk.injEq .. ▸ h3 with ⟨ha, hb2⟩
    exact Or.inr ⟨_, (genRange_bounds 6 (r.width - 6) g hlt).1,
      (genRange_bounds 6 (r.width - 6) g hlt).2, ha.symm, hb2.symm⟩
  · exact absurd h (by simp)

theorem subdivide_none_of_small {r : Rect} (g : RNG)
    (h1 : r.height ≤ 6 * 2) (h2 : r.width ≤ 6 * 2) :
    r.subdivide g = (none, g) := by
  have hh : ¬(r.height > 6 * 2) := by omega
  have hv : ¬(r.width > 6 * 2) := by omega
  simp only [Rect.subdivide, hh, hv, decide_False, Bool.not_false, Bool.and_self,
    if_true, ite_true]

theorem subdivide_some_of_eligible {r : Rect} (g : RNG)
    (h : 6 * 2 < r.height ∨ 6 * 2 < r.width) :
    (r.subdivide g).1 ≠ none := by
  intro hnone
  rcases he : r.subdivide g with ⟨o, g'⟩
  rcases o with _ | ⟨⟨a, b⟩⟩
  · by_cases hh : r.height > 6 * 2 <;> by_cases hv : r.width > 6 * 2 <;>
      simp only [Rect.subdivide, hh, hv, decide_True, decide_False, Bool.not_true,
        Bool.not_false, Bool.and_self, Bool.false_and, Bool.and_false, Bool.true_and,
        Bool.and_true, if_true, if_false, ite_true, ite_false] at he
    · rcases hb : (genBool g).1 with _ | _ <;> simp only [hb, if_false, if_true] at he
      · have hlt : (6 : Int) < r.width - 6 := by omega
        rw [if_pos hlt] at he
        exact absurd (Prod.mk.injEq .. ▸ he).1 (by simp)
      · have hlt : (6 : Int) < r.height - 6 := by omega
        rw [if_pos hlt] at he
        exact absurd (Prod.mk.injEq .. ▸ he).1 (by simp)
    · have hlt : (6 : Int) < r.height - 6 := by omega
      rw [if_pos hlt] at he
      exact absurd (Prod.mk.injEq .. ▸ he).1 (by simp)
    · have hlt : (6 : Int) < r.width - 6 := by omega
      rw [if_pos hlt] at he
      exact absurd (Prod.mk.injEq .. ▸ he).1 (by simp)
    · omega
  · rw [he] at hnone
    exact absurd hnone (by simp)

theorem subdivideRound_pres (P : Rect → Prop)
    (hP : ∀ r g a b g', r.subdivide g = (some (a, b), g') → P r → P a ∧ P b)
    (ls : List Rect) (g : RNG) (h : ∀ r ∈ ls, P r) :
    ∀ r ∈ (subdivideRound ls g).1, P r := by
  induction ls generalizing g with
  | nil => intro r hr; simp [subdivideRound] at hr
  | cons hd tl ih =>
    intro r hr
    rcases hs : hd.subdivide g with ⟨_ | ⟨⟨a, b⟩⟩, g1⟩
    · simp only [subdivideRound, hs] at hr
      rcases List.mem_cons.1 hr with h2 | hr2
      · rw [h2]
        exact h _ (List.mem_cons_self _ _)
      · exact ih g1 (fun x hx => h x (List.mem_cons_of_mem _ hx)) r hr2
    · simp only [subdivideRound, hs] at hr
      rcases List.mem_cons.1 hr with h2 | hr2
      · rw [h2]
        exact (hP hd g a b g1 hs (h hd (List.mem_cons_self _ _))).1
      · rcases List.mem_cons.1 hr2 with h3 | hr3
        · rw [h3]
          exact (hP hd g a b g1 hs (h hd (List.mem_cons_self _ _))).2
        · exact ih g1 (fun x hx => h x (List.mem_cons_of_mem _ hx)) r hr3

theorem bspRounds_pres (P : Rect → Prop)
    (hP : ∀ r g a b g', r.subdivide g = (some (a, b), g') → P r → P a ∧ P b)
    (ls : List Rect) (depth : Nat) (g : RNG) (h : ∀ r ∈ ls, P r) :
    ∀ r ∈ (bspRounds ls depth g).1, P r := by
  induction depth generalizing ls g with
  | zero => exact h
  | succ n ih =>
    intro r hr
    exact ih _ _ (subdivideRound_pres P hP ls g h) r hr

theorem numberRooms_mem {i : Nat} {ls : List Rect} {room : Room}
    (h : room ∈ numberRooms i ls) :
    room.bounds ∈ ls ∧ room.inner = carve room.bounds := by
  induction ls generalizing i with
  | nil => simp [numberRooms] at h
  | cons hd tl ih =>
    rcases List.mem_cons.1 h with rfl | h2
    · exact ⟨List.mem_cons_self _ _, rfl⟩
    · rcases ih h2 with ⟨h1, h3⟩
      exact ⟨List.mem_cons_of_mem _ h1, h3⟩

theorem numberRooms_map_bounds (i : Nat) (ls : List Rect) :
    (numberRooms i ls).map Room.bounds = ls := by
  induction ls generalizing i with
  | nil => rfl
  | cons hd tl ih => simp [numberRooms, ih]

theorem bspRounds_singleton_small (root : Rect) (depth : Nat) (g : RNG)
    (h1 : root.width ≤ 6 * 2) (h2 : root.height ≤ 6 * 2) :
    bspRounds [root] depth g = ([root], g) := by
  induction depth with
  | zero => rfl
  | succ n ih =>
    show bspRounds (subdivideRound [root] g).1 n (subdivideRound [root] g).2 = _
    have hs : subdivideRound [root] g = ([root], g) := by
      simp only [subdivideRound, subdivide_none_of_small g h2 h1]
    rw [hs]
    exact ih

/-- Claim C9: depth 0, or a root no larger than `2 * min_size` on both
axes, yields exactly one Room whose bounds equal the root; and
`subdivide` on `Rect {0, 0, 10, 10}` returns `None` for every stream. -/
theorem C9_degenerate_single_room (root : Rect) (depth : Nat) (g : RNG)
    (h : depth = 0 ∨ (root.width ≤ 6 * 2 ∧ root.height ≤ 6 * 2)) :
    (bsp_split root depth g).1 = [⟨0, root, carve root⟩] ∧
    (∀ room ∈ (bsp_split root depth g).1, room.bounds = root) ∧
    (∀ g2 : RNG, (Rect.subdivide ⟨0, 0, 10, 10⟩ g2).1 = none) := by
  have hrounds : (bspRounds [root] depth g).1 = [root] := by
    rcases h with rfl | ⟨h1, h2⟩
    · rfl
    · rw [bspRounds_singleton_small root depth g h1 h2]
  refine ⟨?_, ?_, ?_⟩
  · show numberRooms 0 (bspRounds [root] depth g).1 = _
    rw [hrounds]
    rfl
  · intro room hroom
    show room.bounds = root
    have : room ∈ numberRooms 0 (bspRounds [root] depth g).1 := hroom
    rw [hrounds] at this
    rcases List.mem_cons.1 this with h2 | h2
    · rw [h2]
    · simp [numberRooms] at h2
  · intro g2
    rw [subdivide_none_of_small g2 (by decide) (by decide)]

theorem C9_witness :
    ((0 : Nat) = 0 ∨ ((24 : Int) ≤ 6 * 2 ∧ (24 : Int) ≤ 6 * 2)) ∧
    ((bsp_split ⟨0, 0, 24, 24⟩ 0 ⟨[], []⟩).1 = [⟨0, ⟨0, 0, 24, 24⟩, carve ⟨0, 0, 24, 24⟩⟩] ∧
      (∀ room ∈ (bsp_split ⟨0, 0, 24, 24⟩ 0 ⟨[], []⟩).1, room.bounds = ⟨0, 0, 24, 24⟩) ∧
      (∀ g2 : RNG, (Rect.subdivide ⟨0, 0, 10, 10⟩ g2).1 = none)) :=
  ⟨Or.inl rfl, C9_degenerate_single_room ⟨0, 0, 24, 24⟩ 0 ⟨[], []⟩ (Or.inl rfl)⟩

/-- Claim C8 (counterexample): no Rect and no random stream make
`subdivide` return `None` while an axis is eligible
(dimension > 2 * min_size): the claimed abandonment is unreachable. -/
theorem C8_counterexample :
    ¬ ∃ (r : Rect) (g : RNG),
      (6 * 2 < r.height ∨ 6 * 2 < r.width) ∧ (r.subdivide g).1 = none := by
  rintro ⟨r, g, helig, hnone⟩
  exact subdivide_some_of_eligible g helig hnone

/-- Claim C8 (amended): whenever an axis of the Rect is eligible
(dimension exceeds 2 * min_size with min_size = 6), eligibility already
implies min_size < dimension - min_size, so `subdivide` always returns
a split and never abandons an eligible axis. -/
theorem C8_eligible_never_abandoned (r : Rect) (g : RNG)
    (h : 6 * 2 < r.height ∨ 6 * 2 < r.width) :
    (r.subdivide g).1 ≠ none :=
  subdivide_some_of_eligible g h

theorem C8_witness :
    ((6 : Int) * 2 < (⟨0, 0, 5, 20⟩ : Rect).height ∨
      (6 : Int) * 2 < (⟨0, 0, 5, 20⟩ : Rect).width) ∧
    ((⟨0, 0, 5, 20⟩ : Rect).subdivide ⟨[], []⟩).1 ≠ none :=
  ⟨by decide, C8_eligible_never_abandoned ⟨0, 0, 5, 20⟩ ⟨[], []⟩ (by decide)⟩

/-- Claim C7 (counterexample): a root with negative width passed to the
splitter does not fail fast: `bsp_split` returns a Room sequence whose
rects keep the nonsensical width. -/
theorem C7_counterexample :
    (bsp_split ⟨0, 0, -5, 20⟩ 1 ⟨[], []⟩).1.map (fun room => room.bounds.width) =
      [-5, -5] := by decide

/-- Claim C7 (amended): the splitter performs no validation of
non-positive root dimensions; it silently returns a Room sequence in
which every room keeps the non-positive width (resp. height) instead of
failing fast. -/
theorem C7_no_fail_fast (root : Rect) (depth : Nat) (g : RNG) :
    (root.width ≤ 0 →
      ∀ room ∈ (bsp_split root depth g).1, room.bounds.width = root.width) ∧
    (root.height ≤ 0 →
      ∀ room ∈ (bsp_split root depth g).1, room.bounds.height = root.height) := by
  constructor
  · intro hw room hroom
    have hpres : ∀ r ∈ (bspRounds [root] depth g).1,
        r.width = root.width ∧ r.width ≤ 0 := by
      refine bspRounds_pres _ ?_ [root] depth g ?_
      · intro r g0 a b g' hs ⟨hP1, hP2⟩
        rcases subdivide_eq_some hs with ⟨s, hs1, hs2, ha, hb⟩ | ⟨s, hs1, hs2, ha, hb⟩
        · rw [ha, hb]
          exact ⟨⟨hP1, hP2⟩, hP1, hP2⟩
        · omega
      · intro r hr
        rcases List.mem_cons.1 hr with h2 | h2
        · rw [h2]; exact ⟨rfl, hw⟩
        · simp at h2
    have := numberRooms_mem (show room ∈ numberRooms 0 (bspRounds [root] depth g).1 from hroom)
    exact (hpres room.bounds this.1).1
  · intro hh room hroom
    have hpres : ∀ r ∈ (bspRounds [root] depth g).1,
        r.height = root.height ∧ r.height ≤ 0 := by
      refine bspRounds_pres _ ?_ [root] depth g ?_
      · intro r g0 a b g' hs ⟨hP1, hP2⟩
        rcases subdivide_eq_some hs with ⟨s, hs1, hs2, ha, hb⟩ | ⟨s, hs1, hs2, ha, hb⟩
        · omega
        · rw [ha, hb]
          exact ⟨⟨hP1, hP2⟩, hP1, hP2⟩
      · intro r hr
        rcases List.mem_cons.1 hr with h2 | h2
        · rw [h2]; exact ⟨rfl, hh⟩
        · simp at h2
    have := numberRooms_mem (show room ∈ numberRooms 0 (bspRounds [root] depth g).1 from hroom)
    exact (hpres room.bounds this.1).1

theorem C7_witness :
    ∀ room ∈ (bsp_split ⟨0, 0, -5, 20⟩ 1 ⟨[], []⟩).1, room.bounds.width = (-5 : Int) :=
  (C7_no_fail_fast ⟨0, 0, -5, 20⟩ 1 ⟨[], []⟩).1 (by decide)

/-- Claim C3 (counterexample): a root Rect with positive width and
height (1 by 1) yields a Room whose inner rect has negative width, so
the carver does emit an inner rect with non-positive dimensions. -/
theorem C3_counterexample :
    (0 : Int) < (⟨0, 0, 1, 1⟩ : Rect).width ∧
    (0 : Int) < (⟨0, 0, 1, 1⟩ : Rect).height ∧
    ∃ room ∈ (bsp_split ⟨0, 0, 1, 1⟩ 0 ⟨[], []⟩).1,
      ¬(0 < room.inner.width ∧ 0 < room.inner.height) := by decide

/-- Claim C3 (amended): for every root Rect with width ≥ 3 and
height ≥ 3, every depth and every random stream, every Room returned by
`bsp_split` has `inner.width > 0` and `inner.height > 0`. -/
theorem C3_inner_positive (root : Rect) (depth : Nat) (g : RNG)
    (hw : 3 ≤ root.width) (hh : 3 ≤ root.height) :
    ∀ room ∈ (bsp_split root depth g).1,
      0 < room.inner.width ∧ 0 < room.inner.height := by
  intro room hroom
  have hpres : ∀ r ∈ (bspRounds [root] depth g).1, 3 ≤ r.width ∧ 3 ≤ r.height := by
    refine bspRounds_pres _ ?_ [root] depth g ?_
    · intro r g0 a b g' hs ⟨hP1, hP2⟩
      rcases subdivide_eq_some hs with ⟨s, hs1, hs2, ha, hb⟩ | ⟨s, hs1, hs2, ha, hb⟩ <;>
        rw [ha, hb] <;> refine ⟨⟨?_, ?_⟩, ?_, ?_⟩ <;> dsimp only <;> omega
    · intro r hr
      rcases List.mem_cons.1 hr with h2 | h2
      · rw [h2]; exact ⟨hw, hh⟩
      · simp at h2
  have hmem := numberRooms_mem (show room ∈ numberRooms 0 (bspRounds [root] depth g).1 from hroom)
  have hb := hpres room.bounds hmem.1
  rw [hmem.2]
  simp only [carve]
  omega

theorem C3_witness :
    (3 : Int) ≤ (⟨0, 0, 24, 24⟩ : Rect).width ∧
    (3 : Int) ≤ (⟨0, 0, 24, 24⟩ : Rect).height ∧
    ∀ room ∈ (bsp_split ⟨0, 0, 24, 24⟩ 1 ⟨[true], [3]⟩).1,
      0 < room.inner.width ∧ 0 < room.inner.height :=
  ⟨by decide, by decide,
    C3_inner_positive ⟨0, 0, 24, 24⟩ 1 ⟨[true], [3]⟩ (by decide) (by decide)⟩

theorem mem_neighbors8 {p q : Position} :
    q ∈ neighbors8 p ↔ chebDist p q = 1 := by
  rcases p with ⟨px, py⟩; rcases q with ⟨qx, qy⟩
  simp only [neighbors8, chebDist, List.mem_cons, List.not_mem_nil, or_false,
    Position.mk.injEq]
  omega

theorem mem_deriveWalls {floor : List Position} {q : Position} :
    q ∈ deriveWalls floor ↔ (q ∉ floor ∧ ∃ p ∈ floor, chebDist p q = 1) := by
  simp only [deriveWalls, List.mem_flatMap, List.mem_filter, Bool.not_eq_true',
    decide_eq_false_iff_not, mem_neighbors8]
  constructor
  · rintro ⟨p, hp, h1, h2⟩
    exact ⟨h2, p, hp, h1⟩
  · rintro ⟨h2, p, hp, h1⟩
    exact ⟨p, hp, h1, h2⟩

/-- Claim C2: for every floor-cell set, the derived wall cells are
exactly the non-floor cells at Chebyshev distance 1 from some floor
cell; hence no cell is both floor and wall, and every wall cell has a
floor cell among its 8 neighbors. -/
theorem C2_wall_characterization (floor : List Position) :
    (∀ q : Position, q ∈ deriveWalls floor ↔
      (q ∉ floor ∧ ∃ p ∈ floor, chebDist p q = 1)) ∧
    (∀ q : Position, ¬(q ∈ floor ∧ q ∈ deriveWalls floor)) ∧
    (∀ q ∈ deriveWalls floor, ∃ p ∈ floor, p ∈ neighbors8 q) := by
  refine ⟨fun q => mem_deriveWalls, ?_, ?_⟩
  · rintro q ⟨hq, hw⟩
    exact (mem_deriveWalls.1 hw).1 hq
  · intro q hw
    rcases (mem_deriveWalls.1 hw).2 with ⟨p, hp, hd⟩
    refine ⟨p, hp, mem_neighbors8.2 ?_⟩
    simp only [chebDist] at hd ⊢
    omega

/-- Claim C6: the horizontal-first corridor branch between centers
`(x1, y1)` and `(x2, y2)` inserts exactly the cells of the horizontal
leg at row `y1` (x from min to max inclusive) unioned with the vertical
leg at column `x2` (y from min to max inclusive); in particular for
centers `(2, 2)` and `(8, 5)` exactly `{(2..8, 2)} ∪ {(8, 2..5)}`. -/
theorem C6_corridor_horizontal_first :
    (∀ (x1 y1 x2 y2 : Int) (p : Position),
      p ∈ corridorPair (x1, y1) (x2, y2) true ↔
        ((p.y = y1 ∧ min x1 x2 ≤ p.x ∧ p.x ≤ max x1 x2) ∨
         (p.x = x2 ∧ min y1 y2 ≤ p.y ∧ p.y ≤ max y1 y2))) ∧
    (∀ p : Position,
      p ∈ corridorPair (2, 2) (8, 5) true ↔
        ((p.y = 2 ∧ 2 ≤ p.x ∧ p.x ≤ 8) ∨ (p.x = 8 ∧ 2 ≤ p.y ∧ p.y ≤ 5))) := by
  have hmain : ∀ (x1 y1 x2 y2 : Int) (p : Position),
      p ∈ corridorPair (x1, y1) (x2, y2) true ↔
        ((p.y = y1 ∧ min x1 x2 ≤ p.x ∧ p.x ≤ max x1 x2) ∨
         (p.x = x2 ∧ min y1 y2 ≤ p.y ∧ p.y ≤ max y1 y2)) := by
    intro x1 y1 x2 y2 p
    simp only [corridorPair, if_true, List.mem_append, mem_hseg, mem_vseg, ite_true]
    constructor
    · rintro (⟨h1, h2, h3⟩ | ⟨h1, h2, h3⟩)
      · exact Or.inl ⟨h3, h1, h2⟩
      · exact Or.inr ⟨h1, h2, h3⟩
    · rintro (⟨h1, h2, h3⟩ | ⟨h1, h2, h3⟩)
      · exact Or.inl ⟨h2, h3, h1⟩
      · exact Or.inr ⟨h1, h2, h3⟩
  refine ⟨hmain, fun p => ?_⟩
  rw [hmain 2 2 8 5 p]
  omega

/-- Claim C5: for equal root, depth and identical random streams, two
runs of `bsp_split` return identical Room sequences: same length and,
at every index, the same id, the same bounds and the same inner. -/
theorem C5_deterministic (root : Rect) (depth : Nat) (g1 g2 : RNG)
    (hb : g1.bits = g2.bits) (hn : g1.nats = g2.nats) :
    (bsp_split root depth g1).1.length = (bsp_split root depth g2).1.length ∧
    ∀ i : Nat,
      ((bsp_split root depth g1).1[i]?).map Room.id =
        ((bsp_split root depth g2).1[i]?).map Room.id ∧
      ((bsp_split root depth g1).1[i]?).map Room.bounds =
        ((bsp_split root depth g2).1[i]?).map Room.bounds ∧
      ((bsp_split root depth g1).1[i]?).map Room.inner =
        ((bsp_split root depth g2).1[i]?).map Room.inner := by
  have hg : g1 = g2 := by
    cases g1; cases g2
    simp only [RNG.mk.injEq]
    exact ⟨hb, hn⟩
  subst hg
  exact ⟨rfl, fun i => ⟨rfl, rfl, rfl⟩⟩

theorem C5_witness :
    ((⟨[true], [3]⟩ : RNG).bits = (⟨[true], [3]⟩ : RNG).bits) ∧
    ((bsp_split ⟨0, 0, 24, 24⟩ 1 ⟨[true], [3]⟩).1.length =
        (bsp_split ⟨0, 0, 24, 24⟩ 1 ⟨[true], [3]⟩).1.length ∧
      ∀ i : Nat,
        ((bsp_split ⟨0, 0, 24, 24⟩ 1 ⟨[true], [3]⟩).1[i]?).map Room.id =
          ((bsp_split ⟨0, 0, 24, 24⟩ 1 ⟨[true], [3]⟩).1[i]?).map Room.id ∧
        ((bsp_split ⟨0, 0, 24, 24⟩ 1 ⟨[true], [3]⟩).1[i]?).map Room.bounds =
          ((bsp_split ⟨0, 0, 24, 24⟩ 1 ⟨[true], [3]⟩).1[i]?).map Room.bounds ∧
        ((bsp_split ⟨0, 0, 24, 24⟩ 1 ⟨[true], [3]⟩).1[i]?).map Room.inner =
          ((bsp_split ⟨0, 0, 24, 24⟩ 1 ⟨[true], [3]⟩).1[i]?).map Room.inner) :=
  ⟨rfl, C5_deterministic ⟨0, 0, 24, 24⟩ 1 ⟨[true], [3]⟩ ⟨[true], [3]⟩ rfl rfl⟩

/-- The center of a rect as a grid cell. -/
def centerPos (r : Rect) : Position :=
  ⟨(r.center).1, (r.center).2⟩

theorem center_containsCell {r : Rect} (hw : 0 < r.width) (hh : 0 < r.height) :
    r.containsCell (centerPos r) := by
  have h1 : Int.tdiv r.width 2 = r.width / 2 := Int.tdiv_eq_ediv (by omega) (by omega)
  have h2 : Int.tdiv r.height 2 = r.height / 2 := Int.tdiv_eq_ediv (by omega) (by omega)
  simp only [Rect.containsCell, centerPos, Rect.center]
  rw [h1, h2]
  refine ⟨by omega, by omega, by omega, by omega⟩

theorem roomFloor_subset {rooms : List Room} {room : Room} (h : room ∈ rooms)
    {p : Position} (hp : p ∈ room.inner.cellsList) (g : RNG) :
    p ∈ floorCells rooms g :=
  List.mem_append_left _ (List.mem_flatMap.2 ⟨room, h, hp⟩)

/-- Claim C10: for every Rect with positive width and height, `center`
is a cell contained in the rectangle; hence every room-center spawn
point (corridor endpoint, enemy spawn, player spawn, all taken as a
room's `inner.center()`) is a cell of that room's inner rect and
therefore a floor cell whenever `inner` has positive dimensions. -/
theorem C10_center_is_floor :
    (∀ r : Rect, 0 < r.width → 0 < r.height → r.containsCell (centerPos r)) ∧
    (∀ (rooms : List Room) (g : RNG) (room : Room), room ∈ rooms →
      0 < room.inner.width → 0 < room.inner.height →
      centerPos room.inner ∈ floorCells rooms g) := by
  refine ⟨fun r hw hh => center_containsCell hw hh, ?_⟩
  intro rooms g room hmem hw hh
  exact roomFloor_subset hmem (mem_cellsList.2 (center_containsCell hw hh)) g

theorem C10_witness :
    ((0 : Int) < (⟨0, 0, 3, 4⟩ : Rect).width ∧
      (0 : Int) < (⟨0, 0, 3, 4⟩ : Rect).height ∧
      Rect.containsCell ⟨0, 0, 3, 4⟩ (centerPos ⟨0, 0, 3, 4⟩)) ∧
    ((⟨7, ⟨0, 0, 5, 5⟩, ⟨1, 1, 3, 3⟩⟩ : Room) ∈ [(⟨7, ⟨0, 0, 5, 5⟩, ⟨1, 1, 3, 3⟩⟩ : Room)] ∧
      centerPos (⟨1, 1, 3, 3⟩ : Rect) ∈
        floorCells [(⟨7, ⟨0, 0, 5, 5⟩, ⟨1, 1, 3, 3⟩⟩ : Room)] ⟨[], []⟩) :=
  ⟨⟨by decide, by decide,
      C10_center_is_floor.1 ⟨0, 0, 3, 4⟩ (by decide) (by decide)⟩,
    ⟨List.mem_singleton.2 rfl,
      C10_center_is_floor.2 [⟨7, ⟨0, 0, 5, 5⟩, ⟨1, 1, 3, 3⟩⟩] ⟨[], []⟩
        ⟨7, ⟨0, 0, 5, 5⟩, ⟨1, 1, 3, 3⟩⟩ (List.mem_singleton.2 rfl)
        (by decide) (by decide)⟩⟩

/-- Area of a rect in cells (signed). -/
def rectArea (r : Rect) : Int :=
  r.width * r.height

/-- Two rects occupy disjoint cell sets. -/
def disjCells (r1 r2 : Rect) : Prop :=
  ∀ p : Position, ¬(r1.containsCell p ∧ r2.containsCell p)

theorem subdivide_partition {r : Rect} {g : RNG} {a b : Rect} {g' : RNG}
    (h : r.subdivide g = (some (a, b), g')) :
    (∀ p, r.containsCell p ↔ (a.containsCell p ∨ b.containsCell p)) ∧
    disjCells a b ∧
    rectArea a + rectArea b = rectArea r := by
  rcases subdivide_eq_some h with ⟨s, h1, h2, ha, hb⟩ | ⟨s, h1, h2, ha, hb⟩ <;>
    subst ha <;> subst hb <;>
    refine ⟨?_, ?_, ?_⟩
  · intro p
    simp only [Rect.containsCell]
    omega
  · intro p
    simp only [Rect.containsCell]
    omega
  · simp only [rectArea]
    ring
  · intro p
    simp only [Rect.containsCell]
    omega
  · intro p
    simp only [Rect.containsCell]
    omega
  · simp only [rectArea]
    ring

theorem subdivide_subset_left {r : Rect} {g : RNG} {a b : Rect} {g' : RNG}
    (h : r.subdivide g = (some (a, b), g')) {p : Position}
    (hp : a.containsCell p) : r.containsCell p :=
  ((subdivide_partition h).1 p).2 (Or.inl hp)

theorem subdivide_subset_right {r : Rect} {g : RNG} {a b : Rect} {g' : RNG}
    (h : r.subdivide g = (some (a, b), g')) {p : Position}
    (hp : b.containsCell p) : r.containsCell p :=
  ((subdivide_partition h).1 p).2 (Or.inr hp)

theorem subdivideRound_union (ls : List Rect) (g : RNG) (p : Position) :
    (∃ r ∈ (subdivideRound ls g).1, r.containsCell p) ↔
      ∃ r ∈ ls, r.containsCell p := by
  induction ls generalizing g with
  | nil => simp [subdivideRound]
  | cons hd tl ih =>
    rcases hs : hd.subdivide g with ⟨_ | ⟨⟨a, b⟩⟩, g1⟩
    · simp only [subdivideRound, hs, List.mem_cons]
      constructor
      · rintro ⟨r, hr | hr, hc⟩
        · exact ⟨r, Or.inl hr, hc⟩
        · rcases (ih g1).1 ⟨r, hr, hc⟩ with ⟨r2, h2, hc2⟩
          exact ⟨r2, Or.inr h2, hc2⟩
      · rintro ⟨r, hr | hr, hc⟩
        · exact ⟨r, Or.inl hr, hc⟩
        · rcases (ih g1).2 ⟨r, hr, hc⟩ with ⟨r2, h2, hc2⟩
          exact ⟨r2, Or.inr h2, hc2⟩
    · simp only [subdivideRound, hs, List.mem_cons]
      constructor
      · rintro ⟨r, hr | hr, hc⟩
        · exact ⟨hd, Or.inl rfl, subdivide_subset_left hs (hr ▸ hc)⟩
        · rcases hr with hr | hr
          · exact ⟨hd, Or.inl rfl, subdivide_subset_right hs (hr ▸ hc)⟩
          · rcases (ih g1).1 ⟨r, hr, hc⟩ with ⟨r2, h2, hc2⟩
            exact ⟨r2, Or.inr h2, hc2⟩
      · rintro ⟨r, hr | hr, hc⟩
        · rcases ((subdivide_partition hs).1 p).1 (hr ▸ hc) with hc2 | hc2
          · exact ⟨a, Or.inl rfl, hc2⟩
          · exact ⟨b, Or.inr (Or.inl rfl), hc2⟩
        · rcases (ih g1).2 ⟨r, hr, hc⟩ with ⟨r2, h2, hc2⟩
          exact ⟨r2, Or.inr (Or.inr h2), hc2⟩

theorem subdivideRound_piece (ls : List Rect) (g : RNG) :
    ∀ r' ∈ (subdivideRound ls g).1, ∃ r ∈ ls,
      ∀ p, r'.containsCell p → r.containsCell p := by
  induction ls generalizing g with
  | nil => intro r' h; simp [subdivideRound] at h
  | cons hd tl ih =>
    intro r' hr'
    rcases hs : hd.subdivide g with ⟨_ | ⟨⟨a, b⟩⟩, g1⟩
    · simp only [subdivideRound, hs] at hr'
      rcases List.mem_cons.1 hr' with h2 | h2
      · exact ⟨hd, List.mem_cons_self _ _, fun p hp => (h2 ▸ hp)⟩
      · rcases ih g1 r' h2 with ⟨r, hr, hsub⟩
        exact ⟨r, List.mem_cons_of_mem _ hr, hsub⟩
    · simp only [subdivideRound, hs] at hr'
      rcases List.mem_cons.1 hr' with h2 | h2
      · exact ⟨hd, List.mem_cons_self _ _,
          fun p hp => subdivide_subset_left hs (h2 ▸ hp)⟩
      · rcases List.mem_cons.1 h2 with h3 | h3
        · exact ⟨hd, List.mem_cons_self _ _,
            fun p hp => subdivide_subset_right hs (h3 ▸ hp)⟩
        · rcases ih g1 r' h3 with ⟨r, hr, hsub⟩
          exact ⟨r, List.mem_cons_of_mem _ hr, hsub⟩

theorem subdivideRound_pairwise (ls : List Rect) (g : RNG)
    (h : List.Pairwise disjCells ls) :
    List.Pairwise disjCells (subdivideRound ls g).1 := by
  induction ls generalizing g with
  | nil => simp [subdivideRound]
  | cons hd tl ih =>
    rcases List.pairwise_cons.1 h with ⟨hhd, htl⟩
    rcases hs : hd.subdivide g with ⟨_ | ⟨⟨a, b⟩⟩, g1⟩
    · simp only [subdivideRound, hs]
      refine List.pairwise_cons.2 ⟨?_, ih g1 htl⟩
      intro r' hr' p ⟨hp1, hp2⟩
      rcases subdivideRound_piece tl g1 r' hr' with ⟨r, hr, hsub⟩
      exact hhd r hr p ⟨hp1, hsub p hp2⟩
    · simp only [subdivideRound, hs]
      refine List.pairwise_cons.2 ⟨?_, List.pairwise_cons.2 ⟨?_, ih g1 htl⟩⟩
      · intro r' hr' p ⟨hp1, hp2⟩
        rcases List.mem_cons.1 hr' with h2 | h2
        · exact (subdivide_partition hs).2.1 p ⟨hp1, h2 ▸ hp2⟩
        · rcases subdivideRound_piece tl g1 r' h2 with ⟨r, hr, hsub⟩
          exact hhd r hr p ⟨subdivide_subset_left hs hp1, hsub p hp2⟩
      · intro r' hr' p ⟨hp1, hp2⟩
        rcases subdivideRound_piece tl g1 r' hr' with ⟨r, hr, hsub⟩
        exact hhd r hr p ⟨subdivide_subset_right hs hp1, hsub p hp2⟩

theorem subdivideRound_area (ls : List Rect) (g : RNG) :
    (((subdivideRound ls g).1).map rectArea).sum = (ls.map rectArea).sum := by
  induction ls generalizing g with
  | nil => rfl
  | cons hd tl ih =>
    rcases hs : hd.subdivide g with ⟨_ | ⟨⟨a, b⟩⟩, g1⟩
    · simp only [subdivideRound, hs, List.map_cons, List.sum_cons, ih g1]
    · simp only [subdivideRound, hs, List.map_cons, List.sum_cons, ih g1]
      have := (subdivide_partition hs).2.2
      omega

theorem bspRounds_union (ls : List Rect) (depth : Nat) (g : RNG) (p : Position) :
    (∃ r ∈ (bspRounds ls depth g).1, r.containsCell p) ↔
      ∃ r ∈ ls, r.containsCell p := by
  induction depth generalizing ls g with
  | zero => exact Iff.rfl
  | succ n ih => exact (ih _ _).trans (subdivideRound_union ls g p)

theorem bspRounds_pairwise (ls : List Rect) (depth : Nat) (g : RNG)
    (h : List.Pairwise disjCells ls) :
    List.Pairwise disjCells (bspRounds ls depth g).1 := by
  induction depth generalizing ls g with
  | zero => exact h
  | succ n ih => exact ih _ _ (subdivideRound_pairwise ls g h)

theorem bspRounds_area (ls : List Rect) (depth : Nat) (g : RNG) :
    (((bspRounds ls depth g).1).map rectArea).sum = (ls.map rectArea).sum := by
  induction depth generalizing ls g with
  | zero => rfl
  | succ n ih => exact (ih _ _).trans (subdivideRound_area ls g)

/-- Claim C4: the bounds of the Rooms returned by `bsp_split` exactly
tile the root: every cell of the root lies in some room's bounds and in
no two rooms' bounds, the leaf areas sum to the root's area, and
whenever `subdivide` splits, the two children share the parent's full
extent on the unsplit axis and partition the split axis exactly at the
offset. -/
theorem C4_leaves_tile_root (root : Rect) (depth : Nat) (g : RNG)
    (_hw : 0 < root.width) (_hh : 0 < root.height) :
    (∀ p : Position, root.containsCell p ↔
      ∃ room ∈ (bsp_split root depth g).1, room.bounds.containsCell p) ∧
    List.Pairwise (fun r1 r2 : Room => disjCells r1.bounds r2.bounds)
      (bsp_split root depth g).1 ∧
    ((bsp_split root depth g).1.map (fun room => rectArea room.bounds)).sum =
      rectArea root ∧
    (∀ (r : Rect) (g0 : RNG) (a b : Rect) (g1 : RNG),
      r.subdivide g0 = (some (a, b), g1) →
      (a.x = r.x ∧ b.x = r.x ∧ a.width = r.width ∧ b.width = r.width ∧
        a.y = r.y ∧ a.height + b.height = r.height ∧ b.y = r.y + a.height) ∨
      (a.y = r.y ∧ b.y = r.y ∧ a.height = r.height ∧ b.height = r.height ∧
        a.x = r.x ∧ a.width + b.width = r.width ∧ b.x = r.x + a.width)) := by
  have hbounds : (bsp_split root depth g).1.map Room.bounds =
      (bspRounds [root] depth g).1 := numberRooms_map_bounds 0 _
  refine ⟨?_, ?_, ?_, ?_⟩
  · intro p
    have h1 := bspRounds_union [root] depth g p
    rw [← hbounds] at h1
    constructor
    · intro hc
      rcases h1.2 ⟨root, List.mem_cons_self _ _, hc⟩ with ⟨rb, hrb, hcb⟩
      rcases List.mem_map.1 hrb with ⟨room, hroom, hbeq⟩
      exact ⟨room, hroom, hbeq ▸ hcb⟩
    · rintro ⟨room, hroom, hc⟩
      rcases h1.1 ⟨room.bounds, List.mem_map.2 ⟨room, hroom, rfl⟩, hc⟩
        with ⟨r2, hr2, hc2⟩
      rcases List.mem_cons.1 hr2 with h3 | h3
      · exact h3 ▸ hc2
      · simp at h3
  · have hpw : List.Pairwise disjCells ((bsp_split root depth g).1.map Room.bounds) := by
      rw [hbounds]
      exact bspRounds_pairwise [root] depth g
        (List.pairwise_cons.2 ⟨fun r hr => by simp at hr, List.Pairwise.nil⟩)
    exact (List.pairwise_map).1 hpw
  · have harea := bspRounds_area [root] depth g
    rw [← hbounds] at harea
    calc ((bsp_split root depth g).1.map (fun room => rectArea room.bounds)).sum
        = (((bsp_split root depth g).1.map Room.bounds).map rectArea).sum := by
          rw [List.map_map]; rfl
      _ = rectArea root := by rw [harea]; simp
  · intro r g0 a b g1 hs
    rcases subdivide_eq_some hs with ⟨s, h1, h2, ha, hb⟩ | ⟨s, h1, h2, ha, hb⟩ <;>
      subst ha <;> subst hb
    · exact Or.inl ⟨rfl, rfl, rfl, rfl, rfl, by dsimp only; ring, rfl⟩
    · exact Or.inr ⟨rfl, rfl, rfl, rfl, rfl, by dsimp only; ring, rfl⟩

theorem C4_witness :
    ((0 : Int) < (⟨0, 0, 24, 24⟩ : Rect).width ∧
      (0 : Int) < (⟨0, 0, 24, 24⟩ : Rect).height) ∧
    ((∀ p : Position, (⟨0, 0, 24, 24⟩ : Rect).containsCell p ↔
      ∃ room ∈ (bsp_split ⟨0, 0, 24, 24⟩ 1 ⟨[true], [3]⟩).1,
        room.bounds.containsCell p) ∧
    List.Pairwise (fun r1 r2 : Room => disjCells r1.bounds r2.bounds)
      (bsp_split ⟨0, 0, 24, 24⟩ 1 ⟨[true], [3]⟩).1 ∧
    ((bsp_split ⟨0, 0, 24, 24⟩ 1 ⟨[true], [3]⟩).1.map
        (fun room => rectArea room.bounds)).sum =
      rectArea ⟨0, 0, 24, 24⟩ ∧
    (∀ (r : Rect) (g0 : RNG) (a b : Rect) (g1 : RNG),
      r.subdivide g0 = (some (a, b), g1) →
      (a.x = r.x ∧ b.x = r.x ∧ a.width = r.width ∧ b.width = r.width ∧
        a.y = r.y ∧ a.height + b.height = r.height ∧ b.y = r.y + a.height) ∨
      (a.y = r.y ∧ b.y = r.y ∧ a.height = r.height ∧ b.height = r.height ∧
        a.x = r.x ∧ a.width + b.width = r.width ∧ b.x = r.x + a.width))) :=
  ⟨⟨by decide, by decide⟩,
    C4_leaves_tile_root ⟨0, 0, 24, 24⟩ 1 ⟨[true], [3]⟩ (by decide) (by decide)⟩

theorem adjStep_symm (floor : List Position) : Symmetric (adjStep floor) := by
  rintro p q ⟨h1, h2, h3⟩
  exact ⟨h2, h1, by omega⟩

theorem reachable_symm {floor : List Position} {p q : Position}
    (h : Reachable floor p q) : Reachable floor q p :=
  Relation.ReflTransGen.symmetric (adjStep_symm floor) h

theorem reach_right (floor : List Position) (a y : Int) (n : Nat)
    (h : ∀ k : Nat, k ≤ n → (⟨a + (k : Int), y⟩ : Position) ∈ floor) :
    Reachable floor ⟨a, y⟩ ⟨a + (n : Int), y⟩ := by
  induction n with
  | zero =>
    have he : (⟨a + ((0 : Nat) : Int), y⟩ : Position) = ⟨a, y⟩ := by
      rw [Position.mk.injEq]; omega
    rw [he]
    exact Relation.ReflTransGen.refl
  | succ m ih =>
    refine Relation.ReflTransGen.tail
      (ih fun k hk => h k (le_trans hk (Nat.le_succ m))) ?_
    refine ⟨h m (Nat.le_succ m), h (m + 1) (le_refl _), ?_⟩
    dsimp only
    omega

theorem reach_up (floor : List Position) (x b : Int) (n : Nat)
    (h : ∀ k : Nat, k ≤ n → (⟨x, b + (k : Int)⟩ : Position) ∈ floor) :
    Reachable floor ⟨x, b⟩ ⟨x, b + (n : Int)⟩ := by
  induction n with
  | zero =>
    have he : (⟨x, b + ((0 : Nat) : Int)⟩ : Position) = ⟨x, b⟩ := by
      rw [Position.mk.injEq]; omega
    rw [he]
    exact Relation.ReflTransGen.refl
  | succ m ih =>
    refine Relation.ReflTransGen.tail
      (ih fun k hk => h k (le_trans hk (Nat.le_succ m))) ?_
    refine ⟨h m (Nat.le_succ m), h (m + 1) (le_refl _), ?_⟩
    dsimp only
    omega

theorem reach_horizontal (floor : List Position) (x1 x2 y : Int)
    (h : ∀ x : Int, min x1 x2 ≤ x → x ≤ max x1 x2 → (⟨x, y⟩ : Position) ∈ floor) :
    Reachable floor ⟨x1, y⟩ ⟨x2, y⟩ := by
  rcases le_total x1 x2 with hle | hle
  · have he : (⟨x2, y⟩ : Position) = ⟨x1 + (((x2 - x1).toNat : Nat) : Int), y⟩ := by
      rw [Position.mk.injEq]; omega
    rw [he]
    exact reach_right floor x1 y (x2 - x1).toNat
      (fun k hk => h (x1 + (k : Int)) (by omega) (by omega))
  · have he : (⟨x1, y⟩ : Position) = ⟨x2 + (((x1 - x2).toNat : Nat) : Int), y⟩ := by
      rw [Position.mk.injEq]; omega
    rw [he]
    exact reachable_symm (reach_right floor x2 y (x1 - x2).toNat
      (fun k hk => h (x2 + (k : Int)) (by omega) (by omega)))

theorem reach_vertical (floor : List Position) (y1 y2 x : Int)
    (h : ∀ yy : Int, min y1 y2 ≤ yy → yy ≤ max y1 y2 → (⟨x, yy⟩ : Position) ∈ floor) :
    Reachable floor ⟨x, y1⟩ ⟨x, y2⟩ := by
  rcases le_total y1 y2 with hle | hle
  · have he : (⟨x, y2⟩ : Position) = ⟨x, y1 + (((y2 - y1).toNat : Nat) : Int)⟩ := by
      rw [Position.mk.injEq]; omega
    rw [he]
    exact reach_up floor x y1 (y2 - y1).toNat
      (fun k hk => h (y1 + (k : Int)) (by omega) (by omega))
  · have he : (⟨x, y1⟩ : Position) = ⟨x, y2 + (((y1 - y2).toNat : Nat) : Int)⟩ := by
      rw [Position.mk.injEq]; omega
    rw [he]
    exact reachable_symm (reach_up floor x y2 (y1 - y2).toNat
      (fun k hk => h (y2 + (k : Int)) (by omega) (by omega)))

theorem reach_in_rect (floor : List Position) (r : Rect)
    (hsub : ∀ c : Position, r.containsCell c → c ∈ floor)
    {p q : Position} (hp : r.containsCell p) (hq : r.containsCell q) :
    Reachable floor p q := by
  rcases hp with ⟨hp1, hp2, hp3, hp4⟩
  rcases hq with ⟨hq1, hq2, hq3, hq4⟩
  have h1 : Reachable floor ⟨p.x, p.y⟩ ⟨q.x, p.y⟩ :=
    reach_horizontal floor p.x q.x p.y
      (fun x hx1 hx2 => hsub ⟨x, p.y⟩ (by simp only [Rect.containsCell]; omega))
  have h2 : Reachable floor ⟨q.x, p.y⟩ ⟨q.x, q.y⟩ :=
    reach_vertical floor p.y q.y q.x
      (fun yy hy1 hy2 => hsub ⟨q.x, yy⟩ (by simp only [Rect.containsCell]; omega))
  exact h1.trans h2

theorem corridorPair_connects (floor : List Position) (c1 c2 : Int × Int) (b : Bool)
    (hsub : ∀ p ∈ corridorPair c1 c2 b, p ∈ floor) :
    Reachable floor ⟨c1.1, c1.2⟩ ⟨c2.1, c2.2⟩ := by
  rcases c1 with ⟨x1, y1⟩
  rcases c2 with ⟨x2, y2⟩
  dsimp only at hsub ⊢
  cases b
  · have h1 : Reachable floor ⟨x1, y1⟩ ⟨x1, y2⟩ :=
      reach_vertical floor y1 y2 x1 (fun yy hy1 hy2 =>
        hsub _ (List.mem_append_left _ (mem_vseg.2 ⟨rfl, hy1, hy2⟩)))
    have h2 : Reachable floor ⟨x1, y2⟩ ⟨x2, y2⟩ :=
      reach_horizontal floor x1 x2 y2 (fun x hx1 hx2 =>
        hsub _ (List.mem_append_right _ (mem_hseg.2 ⟨hx1, hx2, rfl⟩)))
    exact h1.trans h2
  · have h1 : Reachable floor ⟨x1, y1⟩ ⟨x2, y1⟩ :=
      reach_horizontal floor x1 x2 y1 (fun x hx1 hx2 =>
        hsub _ (List.mem_append_left _ (mem_hseg.2 ⟨hx1, hx2, rfl⟩)))
    have h2 : Reachable floor ⟨x2, y1⟩ ⟨x2, y2⟩ :=
      reach_vertical floor y1 y2 x2 (fun yy hy1 hy2 =>
        hsub _ (List.mem_append_right _ (mem_vseg.2 ⟨rfl, hy1, hy2⟩)))
    exact h1.trans h2

theorem corridorsAux_chain (rest : List Room) (prev : Room) (g : RNG)
    (floor : List Position)
    (hsub : ∀ p ∈ (corridorsAux prev rest g).1, p ∈ floor) :
    List.Chain' (fun r1 r2 : Room =>
      Reachable floor (centerPos r1.inner) (centerPos r2.inner)) (prev :: rest) := by
  induction rest generalizing prev g with
  | nil => simp
  | cons r tl ih =>
    refine List.chain'_cons.2 ⟨?_, ih r (genBool g).2 ?_⟩
    · exact corridorPair_connects floor prev.inner.center r.inner.center (genBool g).1
        (fun p hp => hsub p (List.mem_append_left _ hp))
    · exact fun p hp => hsub p (List.mem_append_right _ hp)

theorem chain'_head_reach (floor : List Position) (l : List Room) (hd : Room)
    (hch : List.Chain' (fun r1 r2 : Room =>
      Reachable floor (centerPos r1.inner) (centerPos r2.inner)) (hd :: l)) :
    ∀ b ∈ hd :: l, Reachable floor (centerPos hd.inner) (centerPos b.inner) := by
  induction l generalizing hd with
  | nil =>
    intro b hb
    rcases List.mem_cons.1 hb with h2 | h2
    · rw [h2]
      exact Relation.ReflTransGen.refl
    · simp at h2
  | cons r tl ih =>
    intro b hb
    rcases List.chain'_cons.1 hch with ⟨hstep, htail⟩
    rcases List.mem_cons.1 hb with h2 | h2
    · rw [h2]
      exact Relation.ReflTransGen.refl
    · exact hstep.trans (ih r htail b h2)

theorem chain'_pair_reach (floor : List Position) (l : List Room)
    (hch : List.Chain' (fun r1 r2 : Room =>
      Reachable floor (centerPos r1.inner) (centerPos r2.inner)) l)
    {a b : Room} (ha : a ∈ l) (hb : b ∈ l) :
    Reachable floor (centerPos a.inner) (centerPos b.inner) := by
  rcases l with _ | ⟨hd, tl⟩
  · simp at ha
  · exact (reachable_symm (chain'_head_reach floor tl hd hch a ha)).trans
      (chain'_head_reach floor tl hd hch b hb)

/-- Claim C1: in every generated dungeon whose Rooms all have inner
rects of positive dimensions, every cell of one Room's inner rect is
reachable from every cell of any other Room's inner rect through
orthogonally adjacent cells of the floor set (room interiors unioned
with corridors). -/
theorem C1_rooms_connected (root : Rect) (depth : Nat) (g g2 : RNG)
    (rooms : List Room) (_hgen : rooms = (bsp_split root depth g).1)
    (_hw : 0 < root.width) (_hh : 0 < root.height)
    (hpos : ∀ room ∈ rooms, 0 < room.inner.width ∧ 0 < room.inner.height)
    (r1 r2 : Room) (h1 : r1 ∈ rooms) (h2 : r2 ∈ rooms)
    (p q : Position) (hp : r1.inner.containsCell p) (hq : r2.inner.containsCell q) :
    Reachable (floorCells rooms g2) p q := by
  have hroomsub : ∀ rm : Room, rm ∈ rooms →
      ∀ c : Position, rm.inner.containsCell c → c ∈ floorCells rooms g2 :=
    fun rm hm c hc => roomFloor_subset hm (mem_cellsList.2 hc) g2
  have hreach1 : Reachable (floorCells rooms g2) p (centerPos r1.inner) :=
    reach_in_rect _ r1.inner (hroomsub r1 h1) hp
      (center_containsCell (hpos r1 h1).1 (hpos r1 h1).2)
  have hreach3 : Reachable (floorCells rooms g2) (centerPos r2.inner) q :=
    reach_in_rect _ r2.inner (hroomsub r2 h2) 
      (center_containsCell (hpos r2 h2).1 (hpos r2 h2).2) hq
  have hcenters : Reachable (floorCells rooms g2)
      (centerPos r1.inner) (centerPos r2.inner) := by
    rcases rooms with _ | ⟨hd, tl⟩
    · simp at h1
    · have hch := corridorsAux_chain tl hd g2 (floorCells (hd :: tl) g2)
        (fun pp hpp => List.mem_append_right _ hpp)
      exact chain'_pair_reach _ _ hch h1 h2
  exact (hreach1.trans hcenters).trans hreach3

theorem C1_witness :
    ([(⟨0, ⟨0, 0, 24, 24⟩, ⟨1, 1, 22, 22⟩⟩ : Room)] =
        (bsp_split ⟨0, 0, 24, 24⟩ 0 ⟨[], []⟩).1) ∧
    ((0 : Int) < (⟨0, 0, 24, 24⟩ : Rect).width ∧
      (0 : Int) < (⟨0, 0, 24, 24⟩ : Rect).height) ∧
    (∀ room ∈ [(⟨0, ⟨0, 0, 24, 24⟩, ⟨1, 1, 22, 22⟩⟩ : Room)],
      0 < room.inner.width ∧ 0 < room.inner.height) ∧
    ((⟨0, ⟨0, 0, 24, 24⟩, ⟨1, 1, 22, 22⟩⟩ : Room) ∈
      [(⟨0, ⟨0, 0, 24, 24⟩, ⟨1, 1, 22, 22⟩⟩ : Room)]) ∧
    Rect.containsCell ⟨1, 1, 22, 22⟩ ⟨2, 3⟩ ∧
    Rect.containsCell ⟨1, 1, 22, 22⟩ ⟨10, 11⟩ ∧
    Reachable (floorCells [(⟨0, ⟨0, 0, 24, 24⟩, ⟨1, 1, 22, 22⟩⟩ : Room)] ⟨[], []⟩)
      ⟨2, 3⟩ ⟨10, 11⟩ :=
  ⟨by decide, ⟨by decide, by decide⟩, by decide, by decide, by decide, by decide,
    C1_rooms_connected ⟨0, 0, 24, 24⟩ 0 ⟨[], []⟩ ⟨[], []⟩
      [⟨0, ⟨0, 0, 24, 24⟩, ⟨1, 1, 22, 22⟩⟩] (by decide) (by decide) (by decide)
      (by decide) ⟨0, ⟨0, 0, 24, 24⟩, ⟨1, 1, 22, 22⟩⟩
      ⟨0, ⟨0, 0, 24, 24⟩, ⟨1, 1, 22, 22⟩⟩ (by decide) (by decide)
      ⟨2, 3⟩ ⟨10, 11⟩ (by decide) (by decide)⟩
